import Mathlib

/-!
Shallow embedding of the ramon monitoring daemon's core:
the per-monitor event pipeline (`src/monitor.rs`), the log tailer
(`src/log_watcher.rs`) and the threshold parsing (`src/config.rs`).

Instants and durations are integral time units (`Nat`, think milliseconds);
`Instant::now().duration_since(t)` is saturating subtraction, matching
`Nat` subtraction.  File bytes are modelled as `Char`s (the newline byte is
`'\n'`); a separate `utf8Ok` flag models the UTF-8 decoding step.
-/

namespace Ramon

/-- Model of `toml::Value`, restricted to the variants the pipeline creates
(`Value::String` for regex captures, `Value::Array` for file lists). -/
inductive TValue where
  | str (s : String)
  | arr (vs : List TValue)

/-- Model of `Value::as_str`: `Some` exactly on the string variant. -/
def TValue.as_str : TValue → Option String
  | .str s => some s
  | _ => none

/-- Abstract model of a compiled `regex::Regex`.  `capture_names` mirrors
`Regex::capture_names()` (one entry per group, `none` for unnamed groups);
`captures line` is `none` when the regex does not match, and otherwise gives,
for each group name, the captured text (`none` when the named group did not
participate in the match). -/
structure Regex where
  capture_names : List (Option String)
  captures : String → Option (String → Option String)

/-- Model of `Regex::is_match`. -/
def Regex.is_match (r : Regex) (line : String) : Bool :=
  (r.captures line).isSome

/-- The `monitor.rs` `Event` type.  A `FileChange` path is `none` when it is not valid
UTF-8 (so `into_string` fails). -/
inductive Event where
  | Tick
  | NewLogLine (line : String)
  | FileChange (files : List (Option String))

/-- The `monitor.rs` `struct Unique`.  The `HashSet<String>` is modelled as a
duplicate-free list (insertion only happens after a membership test). -/
structure Unique where
  variable_name : String
  recorded_values : List String

/-- The `monitor.rs` `struct Threshold`: a capacity-`threshold` ring of instants
with a rotating index. -/
structure Threshold where
  threshold : Nat
  duration : Nat
  event_history : List Nat
  rotating_index : Nat
deriving DecidableEq

/-- The `monitor.rs` `struct Monitor` (the predicate state the pipeline mutates;
channels and the action command are external). -/
structure Monitor where
  last_action_time : Option Nat
  cooldown : Option Nat
  log_regex : Option Regex
  ignore_regex : Option Regex
  unique : Option Unique
  threshold : Option Threshold

/-- The extracted-variable map (`HashMap<String, Value>`), as an association
list; lookups return the first binding of a name. -/
def lookupVar : List (String × TValue) → String → Option TValue
  | [], _ => none
  | (k, v) :: rest, n => if k = n then some v else lookupVar rest n

/-- The cooldown gate's condition (`monitor.rs` lines 170-177):
`Instant::now().duration_since(last_action_time) < cooldown`. -/
def cooldown_active (m : Monitor) (now : Nat) : Bool :=
  match m.cooldown, m.last_action_time with
  | some cooldown, some last_action_time => decide (now - last_action_time < cooldown)
  | _, _ => false

/-- The binding loop over `regex.capture_names()` (`monitor.rs` lines
189-202): every *named* group that participated in the match binds
`name := captured_text`; a named group that did not participate only logs a
warning and binds nothing; unnamed groups are skipped. -/
def captureBindings (names : List (Option String)) (caps : String → Option String) :
    List (String × TValue) :=
  names.filterMap fun name? =>
    name?.bind fun capture_name =>
      match caps capture_name with
      | some text => some (capture_name, TValue.str text)
      | none => none

/-- Variable extraction (`monitor.rs` lines 179-228).  Result `.ok none`
means the event is dropped (regex miss or ignore match); `.error` is the
failed UTF-8 path conversion of a `FileChange`. -/
def extract_variables (m : Monitor) : Event → Except String (Option (List (String × TValue)))
  | .NewLogLine line =>
    let step : Option (List (String × TValue)) :=
      match m.log_regex with
      | none => some []
      | some regex =>
        match regex.captures line with
        | none => none
        | some caps => some (captureBindings regex.capture_names caps)
    match step with
    | none => .ok none
    | some temp_variables =>
      match m.ignore_regex with
      | some regex =>
        if regex.is_match line then .ok none else .ok (some temp_variables)
      | none => .ok (some temp_variables)
  | .FileChange files =>
    match files.mapM id with
    | none => .error "Failed to convert path to string."
    | some paths => .ok (some [("files", TValue.arr (paths.map TValue.str))])
  | .Tick => .ok (some [])

/-- The uniqueness gate (`monitor.rs` lines 230-244).  Returns the updated
state and `true` when the pipeline proceeds (`false` = drop). -/
def uniqueGate (u : Unique) (temp_variables : List (String × TValue)) : Unique × Bool :=
  match (lookupVar temp_variables u.variable_name).bind TValue.as_str with
  | none => (u, true)
  | some var =>
    if var ∈ u.recorded_values then (u, false)
    else ({ u with recorded_values := u.recorded_values ++ [var] }, true)

/-- The window check at the end of the threshold gate (`monitor.rs` lines
262-266): inspect `event_history[rotating_index]` and compare against the
window.  `none` models the out-of-bounds indexing panic. -/
def thresholdWindowCheck (t : Threshold) (now : Nat) : Option (Threshold × Bool) :=
  match t.event_history[t.rotating_index]? with
  | none => none
  | some oldest_event => some (t, ! decide (now - oldest_event > t.duration))

/-- The threshold gate (`monitor.rs` lines 250-267).  `none` models a panic
(indexing `event_history[rotating_index]` out of bounds, or `% 0`);
otherwise returns the updated ring and whether the gate fired. -/
def thresholdGate (t : Threshold) (now : Nat) : Option (Threshold × Bool) :=
  if t.event_history.length < t.threshold then
    if (t.event_history ++ [now]).length < t.threshold then
      some ({ t with event_history := t.event_history ++ [now] }, false)
    else
      thresholdWindowCheck { t with event_history := t.event_history ++ [now] } now
  else
    if t.rotating_index < t.event_history.length then
      if t.threshold = 0 then
        none
      else
        thresholdWindowCheck
          { t with
            event_history := t.event_history.set t.rotating_index now,
            rotating_index := (t.rotating_index + 1) % t.threshold } now
    else
      none

/-- Model of `Monitor::run_actions` (`monitor.rs` lines 300-328), restricted to the
pipeline-state effect: `last_action_time := now`.  The spawned command is an
external side effect. -/
def Monitor.run_actions (m : Monitor) (now : Nat) : Monitor :=
  { m with last_action_time := some now }

/-- The tail of `Monitor::evaluate` from the threshold gate on
(`monitor.rs` lines 250-269).  The returned `Bool` is `true` iff
`run_actions` was reached (an action dispatch). -/
def Monitor.evaluateThreshold (m : Monitor) (now : Nat) : Except String (Monitor × Bool) :=
  match m.threshold with
  | none => .ok (m.run_actions now, true)
  | some t =>
    match thresholdGate t now with
    | none => .error "index out of bounds"
    | some (t', fire) =>
      if fire then .ok (({ m with threshold := some t' }).run_actions now, true)
      else .ok ({ m with threshold := some t' }, false)

/-- Model of `Monitor::evaluate` (`monitor.rs` lines 169-270): cooldown gate →
variable extraction (match/ignore) → uniqueness gate → threshold gate →
action dispatch.  The returned `Bool` is `true` iff the event reached
`run_actions`. -/
def Monitor.evaluate (m : Monitor) (now : Nat) (event : Event) :
    Except String (Monitor × Bool) :=
  if cooldown_active m now then .ok (m, false)
  else
    match extract_variables m event with
    | .error e => .error e
    | .ok none => .ok (m, false)
    | .ok (some temp_variables) =>
      match m.unique with
      | some u =>
        match uniqueGate u temp_variables with
        | (u', false) => .ok ({ m with unique := some u' }, false)
        | (u', true) => Monitor.evaluateThreshold { m with unique := some u' } now
      | none => Monitor.evaluateThreshold m now

/-! ### Line splitting (`str::lines` / tokio `AsyncBufReadExt::lines`)

Both the log chunk splitting (`log_watcher.rs` line 153) and the unique-cache
loading (`monitor.rs` lines 120-124) split on `'\n'`, additionally stripping
a `'\r'` that immediately precedes the `'\n'`; a final segment not terminated
by `'\n'` is still a line, and a trailing `'\n'` does not produce an empty
final line. -/

/-- Strip one trailing `'\r'` (the CRLF handling of `lines`). -/
def strip_cr_end (l : List Char) : List Char :=
  if l.getLast? = some '\r' then l.dropLast else l

def rust_lines_aux : List Char → List Char → List (List Char)
  | [], acc => if acc.isEmpty then [] else [acc]
  | c :: rest, acc =>
    if c = '\n' then strip_cr_end acc :: rust_lines_aux rest []
    else rust_lines_aux rest (acc ++ [c])

/-- Rust `lines` over a byte sequence. -/
def rust_lines (content : List Char) : List (List Char) :=
  rust_lines_aux content []

/-! ### UniqueStore (`monitor.rs` `store_unique_values` and the load in
`Monitor::new`) -/

/-- The bytes `Monitor::store_unique_values` writes (lines 289-292): each
value followed by a `'\n'`. -/
def store_unique_values : List String → List Char
  | [] => []
  | v :: rest => v.data ++ '\n' :: store_unique_values rest

/-- Model of `HashSet::insert` on the duplicate-free-list model. -/
def insertSet (s : List String) (v : String) : List String :=
  if v ∈ s then s else s ++ [v]

/-- The load in `Monitor::new` (lines 112-133): a missing cache file yields
the empty set, otherwise each line of the file is inserted. -/
def load_unique_values : Option (List Char) → List String
  | none => []
  | some content => (rust_lines content).foldl (fun s l => insertSet s (String.mk l)) []

/-! ### LogWatcher (`log_watcher.rs`) -/

/-- Model of `LogWatcher::process_chunk` (lines 119-158) as a pure function of the
cursor, the file bytes, whether the chunk decodes as UTF-8, and the observed
size.  Returns the new cursor and the emitted `NewLogLine` payloads.
The single byte read at `new_size - 1` yields the zero byte when the read is
past EOF (the `[0; 1]` buffer is left untouched). -/
def process_chunk (cursor : Nat) (file : List Char) (utf8Ok : Bool) (new_size : Nat) :
    Except String (Nat × List String) :=
  if new_size - cursor > 1024 * 1024 then .ok (new_size, [])
  else if (file[new_size - 1]?).getD (Char.ofNat 0) ≠ '\n' then .ok (cursor, [])
  else if (file.drop cursor).length < new_size - cursor - 1 then .error "ReadFailed"
  else if utf8Ok then
    .ok (new_size, (rust_lines ((file.drop cursor).take (new_size - cursor - 1))).map String.mk)
  else .ok (new_size, [])

/-- Classification of a `notify` filesystem event (`log_watcher.rs`
lines 69-75): rename-from and metadata-any trigger rotation handling, all
other kinds fall through to the chunk read. -/
inductive NotifyKind where
  | renameFrom
  | metadataAny
  | other
deriving DecidableEq

/-- The reopen loop of `LogWatcher::reinit_file_descriptors` (lines 98-110).
`attempts` lists, per iteration, whether the open succeeded and the
`Instant::now()` observed by the timeout check after a failed open;
`timeout` is the 1-second deadline instant.  `some (.ok 0)` is a successful
reopen (cursor reset to 0); `some (.error _)` is the fatal rotation-timeout
bail; `none` means the supplied attempt list ran out (a model artifact:
the real loop continues). -/
def reinit_file_descriptors (timeout : Nat) : List (Bool × Nat) → Option (Except String Nat)
  | [] => none
  | (open_ok, t) :: rest =>
    if open_ok then some (.ok 0)
    else if t > timeout then some (.error "RotationTimeout")
    else reinit_file_descriptors timeout rest

/-- The size checks of `LogWatcher::process_log_event` (lines 77-85):
truncation (`new_size < cursor`: warn, reset the cursor to the new size),
spurious notification (`new_size == cursor`), otherwise the chunk read. -/
def check_size_and_read (cursor : Nat) (file : List Char) (utf8Ok : Bool) (new_size : Nat) :
    Except String (Nat × List String) :=
  if new_size < cursor then .ok (new_size, [])
  else if new_size = cursor then .ok (cursor, [])
  else process_chunk cursor file utf8Ok new_size

/-- Model of `LogWatcher::process_log_event` (lines 64-86): rotation handling for
rename-from / metadata-any (on success the cursor is reset to 0), then the
size checks and the chunk read.  `file` and `new_size` describe the file that
is current after any rotation handling.  `none` propagates an exhausted
attempt list from `reinit_file_descriptors`. -/
def process_log_event (cursor : Nat) (kind : NotifyKind) (timeout : Nat)
    (attempts : List (Bool × Nat)) (file : List Char) (utf8Ok : Bool) (new_size : Nat) :
    Option (Except String (Nat × List String)) :=
  match
    (match kind with
     | .renameFrom | .metadataAny => reinit_file_descriptors timeout attempts
     | .other => some (.ok cursor))
  with
  | none => none
  | some (.error e) => some (.error e)
  | some (.ok cursor) => some (check_size_and_read cursor file utf8Ok new_size)

/-! ### Threshold parsing (`config.rs` lines 275-302) -/

/-- Model of Rust `split` on `"/"`: the pieces of the string between `'/'` separators
(an empty string yields one empty piece). -/
def split_slash_aux : List Char → List Char → List (List Char)
  | [], acc => [acc]
  | c :: rest, acc =>
    if c = '/' then acc :: split_slash_aux rest []
    else split_slash_aux rest (acc ++ [c])

def split_slash (s : List Char) : List (List Char) :=
  split_slash_aux s []

/-- Model of `str::parse` to `usize`: all-digit, non-empty decimal parse. -/
def parse_usize (s : List Char) : Option Nat :=
  if s.isEmpty then none
  else s.foldl
    (fun acc c => acc.bind fun n => if c.isDigit then some (n * 10 + (c.toNat - 48)) else none)
    (some 0)

/-- Model of `parse_monitor_config`'s handling of the `threshold` key.  Durations are
in milliseconds; `parse_duration` abstracts the external `duration_str`
crate; `every_period` is the period of the `every` interval when set.
The single-piece `"W"` form resolves the count to
`duration.as_millis() / interval.period().as_millis()`. -/
def parse_threshold (threshold_str : List Char) (every_period : Option Nat)
    (parse_duration : List Char → Option Nat) : Except String (Nat × Nat) :=
  match split_slash threshold_str with
  | [w] =>
    match every_period with
    | none => .error "Invalid format for threshold: `every` key must be set."
    | some period =>
      match parse_duration w with
      | none => .error "Failed to parse threshold duration"
      | some duration => .ok (duration / period, duration)
  | [n, w] =>
    match parse_usize n with
    | none => .error "Failed to parse threshold"
    | some threshold =>
      match parse_duration w with
      | none => .error "Failed to parse threshold duration"
      | some duration => .ok (threshold, duration)
  | _ => .error "Invalid format for threshold."

/-! ### The threshold ring invariant

`event_history` together with `rotating_index` is a ring: the retained
instants read in ring order (starting at `rotating_index`) are the last
`min(count, N)` instants pushed, oldest first.  `ThresholdInv` states the
shape maintained by `thresholdGate` under monotone time. -/

/-- The retained instants in ring order, oldest first. -/
def ringView (t : Threshold) : List Nat :=
  t.event_history.drop t.rotating_index ++ t.event_history.take t.rotating_index

/-- The state invariant of the threshold ring: at most `N` instants are
retained, the rotating index is `0` while the ring is filling and in range
once it is full, and the ring order is nondecreasing. -/
def ThresholdInv (t : Threshold) : Prop :=
  t.event_history.length ≤ t.threshold ∧
  (t.event_history.length < t.threshold → t.rotating_index = 0) ∧
  (t.rotating_index = 0 ∨ t.rotating_index < t.event_history.length) ∧
  List.Pairwise (· ≤ ·) (ringView t)

instance (t : Threshold) : Decidable (ThresholdInv t) :=
  inferInstanceAs (Decidable (_ ≤ _ ∧ (_ → _ = 0) ∧ (_ = 0 ∨ _ < _) ∧ List.Pairwise (· ≤ ·) _))

theorem ringView_of_index_zero (t : Threshold) (h : t.rotating_index = 0) :
    ringView t = t.event_history := by
  simp [ringView, h]

theorem mem_ringView (t : Threshold) (x : Nat) :
    x ∈ ringView t ↔ x ∈ t.event_history := by
  unfold ringView
  constructor
  · intro hx
    rcases List.mem_append.mp hx with h | h
    · exact List.mem_of_mem_drop h
    · exact List.mem_of_mem_take h
  · intro hx
    rw [← t.event_history.take_append_drop t.rotating_index] at hx
    rcases List.mem_append.mp hx with h | h
    · exact List.mem_append.mpr (Or.inr h)
    · exact List.mem_append.mpr (Or.inl h)

theorem chain_le_append_singleton {L : List Nat} {now : Nat}
    (h : List.Pairwise (· ≤ ·) L) (hm : ∀ x ∈ L, x ≤ now) :
    List.Pairwise (· ≤ ·) (L ++ [now]) := by
  rw [List.pairwise_append]
  exact ⟨h, List.pairwise_singleton _ _, by simpa using hm⟩

theorem chain_le_tail {L : List Nat} (h : List.Pairwise (· ≤ ·) L) :
    List.Pairwise (· ≤ ·) L.tail :=
  h.sublist (List.tail_sublist L)

theorem chain_le_head_min {L : List Nat} {h₀ : Nat}
    (hc : List.Pairwise (· ≤ ·) L) (hh : L.head? = some h₀) :
    ∀ x ∈ L, h₀ ≤ x := by
  cases L with
  | nil => simp at hh
  | cons a l =>
    simp only [List.head?_cons, Option.some.injEq] at hh
    subst hh
    intro x hx
    rcases List.mem_cons.mp hx with rfl | hx
    · exact le_refl _
    · exact List.rel_of_pairwise_cons hc hx

theorem ringView_head? (t : Threshold) (h : t.rotating_index < t.event_history.length) :
    (ringView t).head? = t.event_history[t.rotating_index]? := by
  unfold ringView
  have hd : t.event_history.drop t.rotating_index ≠ [] := by
    simp only [ne_eq, List.drop_eq_nil_iff]
    omega
  rw [List.head?_append_of_ne_nil _ hd, List.head?_drop]

/-- Rotating the ring: overwriting the slot at `rotating_index` with `now`
and advancing the index modulo the (full) capacity drops the oldest retained
instant and appends `now`. -/
theorem ring_rotate (l : List Nat) (ri now : Nat) (h : ri < l.length) :
    (l.set ri now).drop ((ri + 1) % l.length) ++ (l.set ri now).take ((ri + 1) % l.length)
      = (l.drop ri ++ l.take ri).tail ++ [now] := by
  have hset : l.set ri now = l.take ri ++ now :: l.drop (ri + 1) :=
    List.set_eq_take_cons_drop now h
  have hdropri : l.drop ri = l[ri] :: l.drop (ri + 1) := List.drop_eq_getElem_cons h
  have htail : (l.drop ri ++ l.take ri).tail = l.drop (ri + 1) ++ l.take ri := by
    rw [hdropri]; rfl
  rcases Nat.lt_or_ge (ri + 1) l.length with hlt | hge
  · have hmod : (ri + 1) % l.length = ri + 1 := Nat.mod_eq_of_lt hlt
    rw [hmod, htail]
    have hlen : (l.take ri ++ [now]).length = ri + 1 := by
      simp [List.length_take, Nat.min_eq_left h.le]
    have hre : l.take ri ++ now :: l.drop (ri + 1)
        = (l.take ri ++ [now]) ++ l.drop (ri + 1) := by simp
    rw [hset, hre, List.drop_left' hlen, List.take_left' hlen, List.append_assoc]
  · have heq : ri + 1 = l.length := by omega
    have hmod : (ri + 1) % l.length = 0 := by rw [heq, Nat.mod_self]
    have hdropnil : l.drop (ri + 1) = [] := by
      rw [heq, List.drop_length]
    rw [hmod, htail, hdropnil]
    simp [hset, hdropnil]

/-- Full correctness of the threshold gate on an invariant-satisfying ring
under monotone time: the gate does not panic, pushes `now` (appending while
filling, overwriting the oldest slot once full), keeps the invariant, never
clears the ring, and fires exactly when `N` instants are retained and all of
them lie within the window `duration` before `now`. -/
theorem thresholdGate_spec (t : Threshold) (now : Nat)
    (hinv : ThresholdInv t) (hN : 1 ≤ t.threshold)
    (hmono : ∀ x ∈ t.event_history, x ≤ now) :
    ∃ t' fire, thresholdGate t now = some (t', fire) ∧
      ThresholdInv t' ∧
      t'.threshold = t.threshold ∧
      t'.duration = t.duration ∧
      now ∈ t'.event_history ∧
      (∀ x ∈ t'.event_history, x ≤ now) ∧
      t'.event_history.length = min (t.event_history.length + 1) t.threshold ∧
      (t.event_history.length < t.threshold →
        t'.event_history = t.event_history ++ [now]) ∧
      (t.event_history.length = t.threshold →
        t'.event_history = t.event_history.set t.rotating_index now) ∧
      (fire = true ↔ t'.event_history.length = t.threshold ∧
        ∀ x ∈ t'.event_history, now - x ≤ t.duration) := by
  obtain ⟨hlen, hri0, hri, hchain⟩ := hinv
  by_cases hfill : t.event_history.length < t.threshold
  · -- the ring is still filling: `now` is pushed at the end
    have hri' : t.rotating_index = 0 := hri0 hfill
    have hmono' : ∀ x ∈ t.event_history ++ [now], x ≤ now := by
      intro x hx
      rcases List.mem_append.mp hx with h | h
      · exact hmono x h
      · simp only [List.mem_singleton] at h; omega
    have hchain' : List.Pairwise (· ≤ ·) (t.event_history ++ [now]) := by
      apply chain_le_append_singleton _ hmono
      rwa [ringView_of_index_zero t hri'] at hchain
    by_cases h2 : (t.event_history ++ [now]).length < t.threshold
    · -- fewer than N instants recorded: drop
      refine ⟨{ t with event_history := t.event_history ++ [now] }, false,
        ?_, ?_, rfl, rfl, ?_, hmono', ?_, fun _ => rfl, ?_, ?_⟩
      · unfold thresholdGate
        rw [if_pos hfill, if_pos h2]
      · refine ⟨h2.le, fun _ => hri', Or.inl hri', ?_⟩
        show List.Pairwise (· ≤ ·)
          ((t.event_history ++ [now]).drop t.rotating_index
            ++ (t.event_history ++ [now]).take t.rotating_index)
        rw [hri']
        simpa using hchain'
      · simp only [List.mem_append, List.mem_singleton]
        simp
      · show (t.event_history ++ [now]).length = min (t.event_history.length + 1) t.threshold
        simp only [List.length_append, List.length_singleton]
        simp only [List.length_append, List.length_singleton] at h2
        omega
      · intro h
        exact absurd h (Nat.ne_of_lt hfill)
      · constructor
        · intro h
          exact absurd h (by simp)
        · rintro ⟨hl, -⟩
          exact absurd hl (Nat.ne_of_lt h2)
    · -- the push brings the count to exactly N: inspect the oldest instant
      have hlen1 : (t.event_history ++ [now]).length = t.threshold := by
        simp only [List.length_append, List.length_singleton] at h2 ⊢
        omega
      have hlt0 : 0 < (t.event_history ++ [now]).length := by
        simp only [List.length_append, List.length_singleton]
        omega
      have hget : (t.event_history ++ [now])[t.rotating_index]?
          = some ((t.event_history ++ [now])[0]) := by
        rw [hri']
        exact List.getElem?_eq_getElem hlt0
      have hhead : (t.event_history ++ [now]).head? = some ((t.event_history ++ [now])[0]) := by
        rw [List.head?_eq_getElem?]
        exact List.getElem?_eq_getElem hlt0
      have hmin : ∀ x ∈ t.event_history ++ [now], (t.event_history ++ [now])[0] ≤ x :=
        chain_le_head_min hchain' hhead
      refine ⟨{ t with event_history := t.event_history ++ [now] },
        ! decide (now - (t.event_history ++ [now])[0] > t.duration),
        ?_, ?_, rfl, rfl, ?_, hmono', ?_, fun _ => rfl, ?_, ?_⟩
      · unfold thresholdGate thresholdWindowCheck
        rw [if_pos hfill, if_neg h2, hget]
      · refine ⟨hlen1.le, fun h => absurd h (by simp only [List.length_append, List.length_singleton] at hlen1 ⊢; omega), Or.inl hri', ?_⟩
        show List.Pairwise (· ≤ ·)
          ((t.event_history ++ [now]).drop t.rotating_index
            ++ (t.event_history ++ [now]).take t.rotating_index)
        rw [hri']
        simpa using hchain'
      · simp only [List.mem_append, List.mem_singleton]
        simp
      · show (t.event_history ++ [now]).length = min (t.event_history.length + 1) t.threshold
        simp only [List.length_append, List.length_singleton] at hlen1 ⊢
        omega
      · intro h
        exact absurd h (Nat.ne_of_lt hfill)
      · simp only [Bool.not_eq_true', decide_eq_false_iff_not, not_lt, hlen1, true_and]
        constructor
        · intro h x hx
          calc now - x ≤ now - (t.event_history ++ [now])[0] :=
                Nat.sub_le_sub_left (hmin x hx) now
            _ ≤ t.duration := h
        · intro h
          exact h _ (List.getElem_mem hlt0)
  · -- the ring is full: overwrite the slot at `rotating_index`
    have hlenN : t.event_history.length = t.threshold := by omega
    have hrilt : t.rotating_index < t.event_history.length := by
      rcases hri with h | h
      · omega
      · exact h
    have hN0 : t.threshold ≠ 0 := by omega
    have hsetlen : (t.event_history.set t.rotating_index now).length = t.threshold := by
      rw [List.length_set]; exact hlenN
    have hmodlt : (t.rotating_index + 1) % t.threshold < t.threshold :=
      Nat.mod_lt _ (by omega)
    set H' := t.event_history.set t.rotating_index now with hH'
    have hmemH' : ∀ x ∈ H', x ∈ t.event_history ∨ x = now := by
      intro x hx
      rcases List.mem_or_eq_of_mem_set hx with h | h
      · exact Or.inl h
      · exact Or.inr h
    have hmono' : ∀ x ∈ H', x ≤ now := by
      intro x hx
      rcases hmemH' x hx with h | rfl
      · exact hmono x h
      · exact le_refl _
    set t₂ : Threshold :=
      { t with event_history := H', rotating_index := (t.rotating_index + 1) % t.threshold }
      with ht₂
    have hring₂ : ringView t₂ = (ringView t).tail ++ [now] := by
      show H'.drop ((t.rotating_index + 1) % t.threshold)
          ++ H'.take ((t.rotating_index + 1) % t.threshold)
        = (t.event_history.drop t.rotating_index ++ t.event_history.take t.rotating_index).tail
          ++ [now]
      rw [hH']
      have := ring_rotate t.event_history t.rotating_index now hrilt
      rwa [hlenN] at this
    have hchain₂ : List.Pairwise (· ≤ ·) (ringView t₂) := by
      rw [hring₂]
      apply chain_le_append_singleton (chain_le_tail hchain)
      intro x hx
      have : x ∈ ringView t := List.mem_of_mem_tail hx
      exact hmono x ((mem_ringView t x).mp this)
    have hlt₂ : t₂.rotating_index < t₂.event_history.length := by
      show (t.rotating_index + 1) % t.threshold < H'.length
      rw [hH', List.length_set, hlenN]
      exact hmodlt
    have hget₂ : t₂.event_history[t₂.rotating_index]?
        = some (t₂.event_history[t₂.rotating_index]) :=
      List.getElem?_eq_getElem hlt₂
    have hhead₂ : (ringView t₂).head? = some (t₂.event_history[t₂.rotating_index]) := by
      rw [ringView_head? t₂ hlt₂, hget₂]
    have hmin₂ : ∀ x ∈ H', t₂.event_history[t₂.rotating_index] ≤ x := by
      intro x hx
      exact chain_le_head_min hchain₂ hhead₂ x ((mem_ringView t₂ x).mpr hx)
    have hnow₂ : now ∈ H' := by
      have : H'[t.rotating_index]? = some now := by
        rw [hH']
        exact List.getElem?_set_eq_of_lt now hrilt
      exact List.getElem?_mem this
    refine ⟨t₂, ! decide (now - t₂.event_history[t₂.rotating_index] > t.duration),
      ?_, ?_, rfl, rfl, hnow₂, hmono', ?_, ?_, fun _ => rfl, ?_⟩
    · unfold thresholdGate thresholdWindowCheck
      rw [if_neg hfill, if_pos hrilt, if_neg hN0, hget₂]
    · refine ⟨hsetlen.le,
        fun h => absurd h (by show ¬ (H'.length < t.threshold); rw [hsetlen]; omega),
        Or.inr hlt₂, hchain₂⟩
    · show H'.length = min (t.event_history.length + 1) t.threshold
      rw [hsetlen, hlenN]
      omega
    · intro h
      omega
    · simp only [Bool.not_eq_true', decide_eq_false_iff_not, not_lt]
      have hlen₂ : t₂.event_history.length = t.threshold := hsetlen
      simp only [hlen₂, true_and]
      constructor
      · intro h x hx
        calc now - x ≤ now - t₂.event_history[t₂.rotating_index] :=
              Nat.sub_le_sub_left (hmin₂ x hx) now
          _ ≤ t.duration := h
      · intro h
        exact h _ (List.getElem_mem hlt₂)

/-! ### Helper lemmas about the monitor pipeline -/

theorem monitor_eta_unique (m : Monitor) (u : Unique) (hu : m.unique = some u) :
    { m with unique := some u } = m := by
  cases m
  simp only at hu
  rw [hu]

theorem evaluateThreshold_dispatch (m : Monitor) (now : Nat) (m' : Monitor)
    (h : Monitor.evaluateThreshold m now = .ok (m', true)) :
    m'.last_action_time = some now := by
  unfold Monitor.evaluateThreshold at h
  split at h
  · simp only [Except.ok.injEq, Prod.mk.injEq] at h
    rw [← h.1]
    rfl
  · split at h
    · exact absurd h (by simp)
    · split at h
      · simp only [Except.ok.injEq, Prod.mk.injEq] at h
        rw [← h.1]
        rfl
      · simp only [Except.ok.injEq, Prod.mk.injEq] at h
        exact absurd h.2 (by simp)

theorem evaluateThreshold_unique (m : Monitor) (now : Nat) (m' : Monitor) (b : Bool)
    (h : Monitor.evaluateThreshold m now = .ok (m', b)) :
    m'.unique = m.unique := by
  unfold Monitor.evaluateThreshold at h
  split at h
  · simp only [Except.ok.injEq, Prod.mk.injEq] at h
    rw [← h.1]
    rfl
  · split at h
    · exact absurd h (by simp)
    · split at h
      · simp only [Except.ok.injEq, Prod.mk.injEq] at h
        rw [← h.1]
        rfl
      · simp only [Except.ok.injEq, Prod.mk.injEq] at h
        rw [← h.1]


/-! ### Helper lemmas about capture bindings -/

theorem captureBindings_cons_none (names : List (Option String)) (caps : String → Option String) :
    captureBindings (none :: names) caps = captureBindings names caps := by
  simp [captureBindings]

theorem captureBindings_cons_some (k : String) (names : List (Option String))
    (caps : String → Option String) :
    captureBindings (some k :: names) caps
      = match caps k with
        | some text => (k, TValue.str text) :: captureBindings names caps
        | none => captureBindings names caps := by
  cases h : caps k <;> simp [captureBindings, List.filterMap_cons, h]

theorem captureBindings_lookup_some (names : List (Option String))
    (caps : String → Option String) (n text : String)
    (hnd : (names.filterMap id).Nodup) (hmem : some n ∈ names) (hc : caps n = some text) :
    lookupVar (captureBindings names caps) n = some (.str text) := by
  induction names with
  | nil => simp at hmem
  | cons head rest ih =>
    cases head with
    | none =>
      rw [captureBindings_cons_none]
      have hmem' : some n ∈ rest := by
        rcases List.mem_cons.mp hmem with h | h
        · exact absurd h (by simp)
        · exact h
      have hnd' : (rest.filterMap id).Nodup := by
        simpa [List.filterMap_cons] using hnd
      exact ih hnd' hmem'
    | some k =>
      rw [captureBindings_cons_some]
      have hnd' : (rest.filterMap id).Nodup := by
        have h1 : (some k :: rest).filterMap id = k :: rest.filterMap id := by
          simp [List.filterMap_cons]
        rw [h1] at hnd
        exact (List.nodup_cons.mp hnd).2
      by_cases hkn : k = n
      · subst hkn
        simp only [hc]
        simp [lookupVar]
      · have hmem' : some n ∈ rest := by
          rcases List.mem_cons.mp hmem with h | h
          · injection h with h
            exact absurd h.symm hkn
          · exact h
        cases hck : caps k with
        | none =>
          simp only [hck]
          exact ih hnd' hmem'
        | some tk =>
          simp only [hck]
          rw [show lookupVar ((k, TValue.str tk) :: captureBindings rest caps) n
              = lookupVar (captureBindings rest caps) n by simp [lookupVar, hkn]]
          exact ih hnd' hmem'

theorem captureBindings_lookup_none (names : List (Option String))
    (caps : String → Option String) (n : String) (hc : caps n = none) :
    lookupVar (captureBindings names caps) n = none := by
  induction names with
  | nil => rfl
  | cons head rest ih =>
    cases head with
    | none =>
      rw [captureBindings_cons_none]
      exact ih
    | some k =>
      rw [captureBindings_cons_some]
      cases hck : caps k with
      | none =>
        simp only [hck]
        exact ih
      | some tk =>
        simp only [hck]
        have hkn : k ≠ n := by
          intro h
          rw [h, hc] at hck
          exact Option.noConfusion hck
        rw [show lookupVar ((k, TValue.str tk) :: captureBindings rest caps) n
            = lookupVar (captureBindings rest caps) n by simp [lookupVar, hkn]]
        exact ih

theorem captureBindings_mem (names : List (Option String)) (caps : String → Option String) :
    ∀ p ∈ captureBindings names caps, some p.1 ∈ names := by
  intro p hp
  unfold captureBindings at hp
  rcases List.mem_filterMap.mp hp with ⟨name?, hmem, hf⟩
  cases name? with
  | none => simp at hf
  | some k =>
    simp only [Option.some_bind] at hf
    cases hck : caps k with
    | none =>
      rw [hck] at hf
      exact absurd hf (by simp)
    | some text =>
      rw [hck] at hf
      simp only [Option.some.injEq] at hf
      rw [← hf]
      exact hmem

/-! ### Helper lemmas about line splitting and the unique store -/

theorem rust_lines_aux_append_no_newline (l : List Char) (rest acc : List Char)
    (h : '\n' ∉ l) :
    rust_lines_aux (l ++ rest) acc = rust_lines_aux rest (acc ++ l) := by
  induction l generalizing acc with
  | nil => simp
  | cons c cs ih =>
    have hc : c ≠ '\n' := fun hh => h (hh ▸ List.mem_cons_self c cs)
    rw [List.cons_append]
    show rust_lines_aux (c :: (cs ++ rest)) acc = _
    rw [rust_lines_aux, if_neg hc, ih _ (fun hm => h (List.mem_cons_of_mem _ hm))]
    rw [List.append_assoc]
    rfl

theorem strip_cr_end_of_ne (l : List Char) (h : l.getLast? ≠ some '\r') :
    strip_cr_end l = l := by
  unfold strip_cr_end
  rw [if_neg h]

theorem rust_lines_store (values : List String)
    (h : ∀ v ∈ values, '\n' ∉ v.data ∧ v.data.getLast? ≠ some '\r') :
    rust_lines (store_unique_values values) = values.map String.data := by
  induction values with
  | nil => rfl
  | cons v rest ih =>
    rw [store_unique_values]
    unfold rust_lines
    rw [rust_lines_aux_append_no_newline v.data _ [] (h v (List.mem_cons_self v rest)).1]
    simp only [List.nil_append]
    rw [rust_lines_aux, if_pos rfl,
      strip_cr_end_of_ne v.data (h v (List.mem_cons_self v rest)).2]
    rw [show rust_lines_aux (store_unique_values rest) [] = rust_lines (store_unique_values rest)
      from rfl]
    rw [ih (fun u hu => h u (List.mem_cons_of_mem _ hu))]
    rfl

theorem mem_insertSet (s : List String) (v x : String) :
    x ∈ insertSet s v ↔ x ∈ s ∨ x = v := by
  unfold insertSet
  by_cases hv : v ∈ s
  · rw [if_pos hv]
    constructor
    · exact Or.inl
    · rintro (hx | rfl)
      · exact hx
      · exact hv
  · rw [if_neg hv]
    simp [List.mem_append]

theorem mem_foldl_insert_mk (L : List (List Char)) (init : List String) (x : String) :
    x ∈ L.foldl (fun s l => insertSet s (String.mk l)) init
      ↔ x ∈ init ∨ x ∈ L.map String.mk := by
  induction L generalizing init with
  | nil => simp
  | cons l rest ih =>
    simp only [List.foldl_cons, List.map_cons, List.mem_cons]
    rw [ih, mem_insertSet]
    tauto

theorem string_mk_data (s : String) : String.mk s.data = s := rfl

/-- Flushing a set of values (no value containing a newline or ending in a
carriage return) and reloading the file preserves membership exactly. -/
theorem mem_load_store (values : List String) (x : String)
    (h : ∀ v ∈ values, '\n' ∉ v.data ∧ v.data.getLast? ≠ some '\r') :
    x ∈ load_unique_values (some (store_unique_values values)) ↔ x ∈ values := by
  show x ∈ (rust_lines (store_unique_values values)).foldl
      (fun s l => insertSet s (String.mk l)) [] ↔ x ∈ values
  rw [rust_lines_store values h, mem_foldl_insert_mk]
  simp only [List.not_mem_nil, false_or]
  rw [List.map_map]
  constructor
  · intro hx
    rcases List.mem_map.mp hx with ⟨v, hv, hvx⟩
    have hmk : String.mk v.data = v := string_mk_data v
    rw [show (String.mk ∘ String.data) v = String.mk v.data from rfl, hmk] at hvx
    rw [← hvx]
    exact hv
  · intro hx
    refine List.mem_map.mpr ⟨x, hx, ?_⟩
    rw [show (String.mk ∘ String.data) x = String.mk x.data from rfl, string_mk_data x]

/-! ### Helper lemmas about the log watcher -/

theorem process_chunk_cursor_cases (cursor : Nat) (file : List Char) (utf8Ok : Bool)
    (new_size c' : Nat) (out : List String)
    (h : process_chunk cursor file utf8Ok new_size = .ok (c', out)) :
    c' = cursor ∨ c' = new_size := by
  unfold process_chunk at h
  by_cases h1 : new_size - cursor > 1024 * 1024
  · rw [if_pos h1] at h
    simp only [Except.ok.injEq, Prod.mk.injEq] at h
    exact Or.inr h.1.symm
  · rw [if_neg h1] at h
    by_cases h2 : (file[new_size - 1]?).getD (Char.ofNat 0) ≠ '\n'
    · rw [if_pos h2] at h
      simp only [Except.ok.injEq, Prod.mk.injEq] at h
      exact Or.inl h.1.symm
    · rw [if_neg h2] at h
      by_cases h3 : (file.drop cursor).length < new_size - cursor - 1
      · rw [if_pos h3] at h
        simp at h
      · rw [if_neg h3] at h
        by_cases h4 : utf8Ok = true
        · rw [if_pos h4] at h
          simp only [Except.ok.injEq, Prod.mk.injEq] at h
          exact Or.inr h.1.symm
        · rw [if_neg h4] at h
          simp only [Except.ok.injEq, Prod.mk.injEq] at h
          exact Or.inr h.1.symm

theorem reinit_ok_zero (timeout : Nat) (attempts : List (Bool × Nat)) (c₀ : Nat)
    (h : reinit_file_descriptors timeout attempts = some (.ok c₀)) : c₀ = 0 := by
  induction attempts with
  | nil => simp [reinit_file_descriptors] at h
  | cons a rest ih =>
    obtain ⟨open_ok, t⟩ := a
    unfold reinit_file_descriptors at h
    split at h
    · simp only [Option.some.injEq, Except.ok.injEq] at h
      exact h.symm
    · split at h
      · simp at h
      · exact ih h

theorem reinit_success (timeout tok : Nat) (pre post : List (Bool × Nat))
    (hpre : ∀ p ∈ pre, p.1 = false ∧ p.2 ≤ timeout) :
    reinit_file_descriptors timeout (pre ++ (true, tok) :: post) = some (.ok 0) := by
  induction pre with
  | nil => rfl
  | cons a rest ih =>
    obtain ⟨open_ok, t⟩ := a
    have ha1 : open_ok = false := (hpre (open_ok, t) (List.mem_cons_self _ _)).1
    have ha2 : t ≤ timeout := (hpre (open_ok, t) (List.mem_cons_self _ _)).2
    rw [List.cons_append]
    unfold reinit_file_descriptors
    rw [ha1]
    simp only [Bool.false_eq_true, if_false]
    rw [if_neg (by omega)]
    exact ih (fun p hp => hpre p (List.mem_cons_of_mem _ hp))

theorem reinit_timeout (timeout tfail : Nat) (pre post : List (Bool × Nat))
    (hpre : ∀ p ∈ pre, p.1 = false ∧ p.2 ≤ timeout) (hfail : tfail > timeout) :
    reinit_file_descriptors timeout (pre ++ (false, tfail) :: post)
      = some (.error "RotationTimeout") := by
  induction pre with
  | nil =>
    rw [List.nil_append]
    unfold reinit_file_descriptors
    simp only [Bool.false_eq_true, if_false]
    rw [if_pos hfail]
  | cons a rest ih =>
    obtain ⟨open_ok, t⟩ := a
    have ha1 : open_ok = false := (hpre (open_ok, t) (List.mem_cons_self _ _)).1
    have ha2 : t ≤ timeout := (hpre (open_ok, t) (List.mem_cons_self _ _)).2
    rw [List.cons_append]
    unfold reinit_file_descriptors
    rw [ha1]
    simp only [Bool.false_eq_true, if_false]
    rw [if_neg (by omega)]
    exact ih (fun p hp => hpre p (List.mem_cons_of_mem _ hp))

theorem process_log_event_other (cursor timeout : Nat) (attempts : List (Bool × Nat))
    (file : List Char) (utf8Ok : Bool) (new_size : Nat) :
    process_log_event cursor .other timeout attempts file utf8Ok new_size
      = some (check_size_and_read cursor file utf8Ok new_size) := rfl

theorem process_log_event_rotation (cursor timeout : Nat) (kind : NotifyKind)
    (attempts : List (Bool × Nat)) (file : List Char) (utf8Ok : Bool) (new_size : Nat)
    (hk : kind = .renameFrom ∨ kind = .metadataAny) :
    process_log_event cursor kind timeout attempts file utf8Ok new_size
      = match reinit_file_descriptors timeout attempts with
        | none => none
        | some (.error e) => some (.error e)
        | some (.ok c₀) => some (check_size_and_read c₀ file utf8Ok new_size) := by
  rcases hk with rfl | rfl <;> rfl

theorem check_size_and_read_cursor (cursor : Nat) (file : List Char) (utf8Ok : Bool)
    (new_size c' : Nat) (out : List String)
    (h : check_size_and_read cursor file utf8Ok new_size = .ok (c', out)) :
    (new_size < cursor → c' = new_size) ∧
    (¬ new_size < cursor → c' = cursor ∨ c' = new_size) := by
  unfold check_size_and_read at h
  by_cases h1 : new_size < cursor
  · rw [if_pos h1] at h
    simp only [Except.ok.injEq, Prod.mk.injEq] at h
    exact ⟨fun _ => h.1.symm, fun hn => absurd h1 hn⟩
  · rw [if_neg h1] at h
    refine ⟨fun hl => absurd hl h1, fun _ => ?_⟩
    by_cases h2 : new_size = cursor
    · rw [if_pos h2] at h
      simp only [Except.ok.injEq, Prod.mk.injEq] at h
      exact Or.inl h.1.symm
    · rw [if_neg h2] at h
      exact process_chunk_cursor_cases _ _ _ _ _ _ h

/-! ### Claim theorems -/

/-- C1.  For a monitor configured with `threshold = (N, W)` (so `N ≥ 1`),
an event that reaches the threshold gate pushes the current instant into the
ring — appended while fewer than `N` instants are held, overwriting the
oldest retained slot once `N` are held — the ring is never cleared (its size
is `min (old size + 1) N`), and the pipeline proceeds to action dispatch
exactly when `N` instants have been recorded and every retained instant
(in particular the oldest) lies at most `W` before `now`; hence every
dispatch is backed by at least `N` qualifying events within a window of
length at most `W` immediately preceding it. -/
theorem C1_threshold_gate (t t' : Threshold) (now : Nat) (fire : Bool)
    (hinv : ThresholdInv t) (hN : 1 ≤ t.threshold)
    (hmono : ∀ x ∈ t.event_history, x ≤ now)
    (hgate : thresholdGate t now = some (t', fire)) :
    now ∈ t'.event_history ∧
    t'.event_history.length = min (t.event_history.length + 1) t.threshold ∧
    (t.event_history.length < t.threshold →
      t'.event_history = t.event_history ++ [now]) ∧
    (t.event_history.length = t.threshold →
      t'.event_history = t.event_history.set t.rotating_index now) ∧
    ThresholdInv t' ∧
    (fire = true ↔ t'.event_history.length = t.threshold ∧
      ∀ x ∈ t'.event_history, now - x ≤ t.duration) := by
  obtain ⟨t'', fire'', hg, hi, -, -, hmem, -, hlen, hf1, hf2, hiff⟩ :=
    thresholdGate_spec t now hinv hN hmono
  rw [hg] at hgate
  simp only [Option.some.injEq, Prod.mk.injEq] at hgate
  obtain ⟨rfl, rfl⟩ := hgate
  exact ⟨hmem, hlen, hf1, hf2, hi, hiff⟩

theorem C1_threshold_gate_witness :
    (3 : Nat) ∈ (Threshold.mk 2 10 [3, 2] 1).event_history ∧
    (Threshold.mk 2 10 [3, 2] 1).event_history.length
      = min ((Threshold.mk 2 10 [1, 2] 0).event_history.length + 1)
          (Threshold.mk 2 10 [1, 2] 0).threshold := by
  have h := C1_threshold_gate ⟨2, 10, [1, 2], 0⟩ ⟨2, 10, [3, 2], 1⟩ 3 true
    (by decide) (by decide) (by decide) (by decide)
  exact ⟨h.1, h.2.1⟩

/-- A concrete stand-in for the external `duration_str::parse`, used only to
instantiate theorems at concrete inputs. -/
def fixed_parse_duration (s : List Char) : Option Nat :=
  if s = "50ms".data then some 50 else none

/-- C10.  The threshold gate is total only under `N ≥ 1`: a threshold
written in the single-`"W"` form resolves to `N = ⌊W / every⌋`, which is `0`
whenever `W` is shorter than the `every` period; a monitor whose threshold
count is `0` panics (indexes the empty ring) on the first event that reaches
the threshold gate; and under the ring invariant with `N ≥ 1` the gate never
panics. -/
theorem C10_zero_threshold (w : List Char) (period d : Nat)
    (parse_dur : List Char → Option Nat) (t : Threshold) (now : Nat)
    (hsplit : split_slash w = [w]) (hpd : parse_dur w = some d)
    (hlt : d < period) :
    parse_threshold w (some period) parse_dur = .ok (0, d) ∧
    (∀ d' ri n, thresholdGate ⟨0, d', [], ri⟩ n = none) ∧
    (ThresholdInv t → 1 ≤ t.threshold → (∀ x ∈ t.event_history, x ≤ now) →
      (thresholdGate t now).isSome) := by
  refine ⟨?_, ?_, ?_⟩
  · unfold parse_threshold
    rw [hsplit]
    simp only [hpd]
    rw [Nat.div_eq_of_lt hlt]
  · intro d' ri n
    simp [thresholdGate]
  · intro hinv hN hmono
    obtain ⟨t', fire, hg, -⟩ := thresholdGate_spec t now hinv hN hmono
    rw [hg]
    rfl

theorem C10_zero_threshold_witness :
    parse_threshold "50ms".data (some 100) fixed_parse_duration = .ok (0, 50) ∧
    thresholdGate ⟨0, 10, [], 0⟩ 5 = none := by
  have h := C10_zero_threshold "50ms".data 100 50 fixed_parse_duration ⟨1, 1, [], 0⟩ 0
    (by decide) (by decide) (by decide)
  exact ⟨h.1, h.2.1 10 0 5⟩

/-- C2.  With `cooldown = C` and a recorded `last_action_time`, an event
arriving strictly less than `C` after the last dispatch is dropped with the
whole monitor state untouched (so before any other gate can act), and any
event that does reach an action dispatch has `now - last ≥ C` and records
`last_action_time := now` — hence two successive dispatches are at least `C`
apart. -/
theorem C2_cooldown (m : Monitor) (now C last : Nat) (event : Event)
    (hc : m.cooldown = some C) (hl : m.last_action_time = some last) :
    (now - last < C → m.evaluate now event = .ok (m, false)) ∧
    (∀ m', m.evaluate now event = .ok (m', true) →
      C ≤ now - last ∧ m'.last_action_time = some now) := by
  have hact : cooldown_active m now = decide (now - last < C) := by
    unfold cooldown_active
    rw [hc, hl]
  constructor
  · intro h
    have hcf : cooldown_active m now = true := by
      rw [hact]
      exact decide_eq_true h
    simp only [Monitor.evaluate, hcf, if_true]
  · intro m' hev
    by_cases hcd : now - last < C
    · have hcf : cooldown_active m now = true := by
        rw [hact]
        exact decide_eq_true hcd
      simp only [Monitor.evaluate, hcf, if_true] at hev
      simp at hev
    · have hcf : cooldown_active m now = false := by
        rw [hact]
        exact decide_eq_false hcd
      refine ⟨Nat.le_of_not_lt hcd, ?_⟩
      cases hex : extract_variables m event with
      | error e =>
        simp only [Monitor.evaluate, hcf, Bool.false_eq_true, if_false, hex] at hev
        simp at hev
      | ok o =>
        cases o with
        | none =>
          simp only [Monitor.evaluate, hcf, Bool.false_eq_true, if_false, hex] at hev
          simp at hev
        | some vars =>
          cases hu : m.unique with
          | none =>
            simp only [Monitor.evaluate, hcf, Bool.false_eq_true, if_false, hex, hu] at hev
            exact evaluateThreshold_dispatch _ _ _ hev
          | some u =>
            rcases hug : uniqueGate u vars with ⟨u', proceed⟩
            cases proceed with
            | false =>
              simp only [Monitor.evaluate, hcf, Bool.false_eq_true, if_false, hex, hu, hug] at hev
              simp at hev
            | true =>
              simp only [Monitor.evaluate, hcf, Bool.false_eq_true, if_false, hex, hu, hug] at hev
              exact evaluateThreshold_dispatch _ _ _ hev

/-- A concrete monitor with only a cooldown configured, for witnesses. -/
def mC2 : Monitor := ⟨some 0, some 10, none, none, none, none⟩

theorem C2_cooldown_witness : mC2.evaluate 5 Event.Tick = .ok (mC2, false) :=
  (C2_cooldown mC2 5 10 0 Event.Tick rfl rfl).1 (by decide)

/-- C3 (amended).  With `unique = v` configured, on an event whose extracted
variables bind `v` to a string value: a missing cache file loads as the empty
set; if the value is already recorded the event is dropped with the monitor
(including its threshold ring) untouched; otherwise the value is inserted
into the recorded set and, whatever the later gates decide, the value is
recorded afterwards; and for values that contain no newline and do not end
with a carriage return, flushing the recorded set and reloading it preserves
membership exactly — so per such distinct value, including values flushed by
prior runs, the action can be dispatched at most once.  (A flushed value that
ends with a carriage return is reloaded with the `'\r'` stripped and can be
dispatched again after a restart: see the counterexample.) -/
theorem C3_unique (m : Monitor) (now : Nat) (event : Event) (u : Unique) (v : String)
    (vars : List (String × TValue))
    (hu : m.unique = some u)
    (hex : extract_variables m event = .ok (some vars))
    (hbind : lookupVar vars u.variable_name = some (.str v)) :
    load_unique_values none = [] ∧
    (v ∈ u.recorded_values → m.evaluate now event = .ok (m, false)) ∧
    (cooldown_active m now = false → v ∉ u.recorded_values →
      ∀ m' b, m.evaluate now event = .ok (m', b) →
        m'.unique = some { u with recorded_values := u.recorded_values ++ [v] }) ∧
    (cooldown_active m now = false →
      ∀ m' b, m.evaluate now event = .ok (m', b) →
        ∀ u', m'.unique = some u' → v ∈ u'.recorded_values) ∧
    ((∀ w ∈ u.recorded_values, '\n' ∉ w.data ∧ w.data.getLast? ≠ some '\r') →
      v ∈ u.recorded_values →
      v ∈ load_unique_values (some (store_unique_values u.recorded_values))) := by
  have hgate : uniqueGate u vars
      = if v ∈ u.recorded_values then (u, false)
        else ({ u with recorded_values := u.recorded_values ++ [v] }, true) := by
    unfold uniqueGate
    rw [hbind]
    rfl
  refine ⟨rfl, ?_, ?_, ?_, ?_⟩
  · intro hv
    by_cases hcd : cooldown_active m now = true
    · simp only [Monitor.evaluate, hcd, if_true]
    · have hcf : cooldown_active m now = false := by
        revert hcd
        cases cooldown_active m now <;> simp
      simp only [Monitor.evaluate, hcf, Bool.false_eq_true, if_false, hex, hu, hgate, hv,
        ite_true]
      rw [monitor_eta_unique m u hu]
  · intro hcd hv m' b hev
    simp only [Monitor.evaluate, hcd, Bool.false_eq_true, if_false, hex, hu, hgate, hv,
      ite_false] at hev
    have h := evaluateThreshold_unique _ _ _ _ hev
    rw [h]
  · intro hcd m' b hev
    by_cases hv : v ∈ u.recorded_values
    · simp only [Monitor.evaluate, hcd, Bool.false_eq_true, if_false, hex, hu, hgate, hv,
        ite_true] at hev
      simp only [Except.ok.injEq, Prod.mk.injEq] at hev
      intro u' hu'
      rw [← hev.1] at hu'
      have h : some u = some u' := hu'
      injection h with h
      rw [← h]
      exact hv
    · simp only [Monitor.evaluate, hcd, Bool.false_eq_true, if_false, hex, hu, hgate, hv,
        ite_false] at hev
      have h := evaluateThreshold_unique _ _ _ _ hev
      intro u' hu'
      rw [h] at hu'
      have h2 : some { u with recorded_values := u.recorded_values ++ [v] } = some u' := hu'
      injection h2 with h2
      rw [← h2]
      simp
  · intro hall hv
    exact (mem_load_store u.recorded_values v hall).mpr hv

/-- A concrete regex binding the group `u`, for witnesses. -/
def capsC3 : String → Option String :=
  fun n => if n = "u" then some "alice" else none

def rC3 : Regex :=
  ⟨[some "u"], fun l => if l = "user=alice" then some capsC3 else none⟩

/-- A concrete monitor with `match_log` and `unique = "u"`, whose recorded
set already holds `"alice"`, for witnesses. -/
def mC3 : Monitor := ⟨none, none, some rC3, none, some ⟨"u", ["alice"]⟩, none⟩

theorem C3_unique_witness :
    mC3.evaluate 7 (Event.NewLogLine "user=alice") = .ok (mC3, false) ∧
    "alice" ∈ load_unique_values (some (store_unique_values ["alice"])) := by
  have h := C3_unique mC3 7 (Event.NewLogLine "user=alice") ⟨"u", ["alice"]⟩ "alice"
    [("u", TValue.str "alice")] rfl rfl rfl
  exact ⟨h.2.1 (by decide), h.2.2.2.2 (by decide) (by decide)⟩

/-- A concrete capture function for the C3 counterexample: the group `u`
captures the text `a\r` (a regex capture over a line with an interior
carriage return can end in `'\r'`). -/
def capsC3cx : String → Option String :=
  fun n => if n = "u" then some "a\r" else none

def rC3cx : Regex :=
  ⟨[some "u"], fun l => if l = "x=a\r" then some capsC3cx else none⟩

/-- A fresh-run monitor whose unique set is the prior run's flushed set
`{"a\r"}` as reloaded from disk, for the C3 counterexample. -/
def mC3cx : Monitor :=
  ⟨none, none, some rC3cx, none,
    some ⟨"u", load_unique_values (some (store_unique_values ["a\r"]))⟩, none⟩

/-- C3 (counterexample).  The value `a\r` was recorded and flushed by a
prior run, yet it does not survive the flush-and-reload (the line reader
strips the `'\r'` before the newline terminator), so the fresh run's monitor
dispatches the action for `a\r` a second time: per-value at-most-once fails
across runs for values ending in a carriage return. -/
theorem C3_unique_counterexample :
    "a\r" ∈ ["a\r"] ∧
    "a\r" ∉ load_unique_values (some (store_unique_values ["a\r"])) ∧
    mC3cx.evaluate 0 (Event.NewLogLine "x=a\r")
      = .ok (⟨some 0, none, some rC3cx, none, some ⟨"u", ["a", "a\r"]⟩, none⟩, true) :=
  ⟨by decide, by decide, rfl⟩

/-- C7.  With `match_regex` set, a `NewLogLine` event is dropped (monitor
untouched) when the regex does not match; when it matches, the extracted
variables are exactly the bindings of the named capture groups that
participated (a non-participating named group binds nothing, unnamed groups
are skipped), and `ignore_regex` is evaluated after the match step, dropping
the event when it matches the line. -/
theorem C7_match_extract_ignore (m : Monitor) (r : Regex) (line : String) (now : Nat)
    (hr : m.log_regex = some r) :
    (r.captures line = none → m.evaluate now (.NewLogLine line) = .ok (m, false)) ∧
    (∀ caps, r.captures line = some caps →
      ∀ ir, m.ignore_regex = some ir → ir.is_match line = true →
        m.evaluate now (.NewLogLine line) = .ok (m, false)) ∧
    (∀ caps, r.captures line = some caps →
      ∀ vars, extract_variables m (.NewLogLine line) = .ok (some vars) →
        vars = captureBindings r.capture_names caps ∧
        ((r.capture_names.filterMap id).Nodup →
          ∀ n text, caps n = some text → some n ∈ r.capture_names →
            lookupVar vars n = some (.str text)) ∧
        (∀ n, caps n = none → lookupVar vars n = none) ∧
        (∀ p ∈ vars, some p.1 ∈ r.capture_names)) := by
  refine ⟨?_, ?_, ?_⟩
  · intro hcaps
    by_cases hcd : cooldown_active m now = true
    · simp only [Monitor.evaluate, hcd, if_true]
    · have hcf : cooldown_active m now = false := by
        revert hcd
        cases cooldown_active m now <;> simp
      simp only [Monitor.evaluate, hcf, Bool.false_eq_true, if_false, extract_variables,
        hr, hcaps]
  · intro caps hcaps ir hir him
    by_cases hcd : cooldown_active m now = true
    · simp only [Monitor.evaluate, hcd, if_true]
    · have hcf : cooldown_active m now = false := by
        revert hcd
        cases cooldown_active m now <;> simp
      simp only [Monitor.evaluate, hcf, Bool.false_eq_true, if_false, extract_variables,
        hr, hcaps, hir, him, if_true]
  · intro caps hcaps vars hex
    have hvars : vars = captureBindings r.capture_names caps := by
      revert hex
      simp only [extract_variables, hr, hcaps]
      cases hir : m.ignore_regex with
      | none =>
        intro hex
        simp only [Except.ok.injEq, Option.some.injEq] at hex
        exact hex.symm
      | some ir =>
        cases him : ir.is_match line with
        | true =>
          intro hex
          simp [him] at hex
        | false =>
          intro hex
          simp only [him, Bool.false_eq_true, if_false, Except.ok.injEq,
            Option.some.injEq] at hex
          exact hex.symm
    subst hvars
    exact ⟨rfl,
      fun hnd n text hc hm => captureBindings_lookup_some r.capture_names caps n text hnd hm hc,
      fun n hc => captureBindings_lookup_none r.capture_names caps n hc,
      captureBindings_mem r.capture_names caps⟩

/-- A concrete capture function for the C7 witness: the group `msg`
participated with text `boom`, the group `missing` did not participate. -/
def capsC7 : String → Option String :=
  fun n => if n = "msg" then some "boom" else none

/-- A concrete regex with an unnamed group and the named groups `msg` and
`missing`, matching exactly the line `ERROR boom`. -/
def rC7 : Regex :=
  ⟨[none, some "msg", some "missing"], fun l => if l = "ERROR boom" then some capsC7 else none⟩

def mC7 : Monitor := ⟨none, none, some rC7, none, none, none⟩

theorem C7_match_extract_ignore_witness :
    lookupVar [("msg", TValue.str "boom")] "msg" = some (TValue.str "boom") ∧
    lookupVar [("msg", TValue.str "boom")] "missing" = none := by
  have h := (C7_match_extract_ignore mC7 rC7 "ERROR boom" 0 rfl).2.2 capsC7 rfl
    [("msg", TValue.str "boom")] rfl
  exact ⟨h.2.1 (by decide) "msg" "boom" rfl (by decide), h.2.2.1 "missing" rfl⟩

/-- C4.  Within a chunk read (the chunk is non-empty, at most 1 MiB, and
covered by the file): if the single byte at absolute offset `new_size - 1` is
not a newline the tailer returns with the cursor unchanged and emits nothing;
otherwise it reads exactly `new_size - cursor - 1` bytes starting at
`cursor`, sets `cursor := new_size`, and emits one `NewLogLine` per
newline-separated line of the decoded chunk, in order. -/
theorem C4_chunk_read (cursor new_size : Nat) (file : List Char) (utf8Ok : Bool)
    (h1 : cursor < new_size) (h2 : new_size - cursor ≤ 1024 * 1024)
    (h3 : new_size ≤ file.length) :
    ((file[new_size - 1]?).getD (Char.ofNat 0) ≠ '\n' →
      process_chunk cursor file utf8Ok new_size = .ok (cursor, [])) ∧
    ((file[new_size - 1]?).getD (Char.ofNat 0) = '\n' →
      process_chunk cursor file true new_size
        = .ok (new_size,
            (rust_lines ((file.drop cursor).take (new_size - cursor - 1))).map String.mk) ∧
      ((file.drop cursor).take (new_size - cursor - 1)).length = new_size - cursor - 1) := by
  have hbig : ¬ (new_size - cursor > 1024 * 1024) := by omega
  have hdrop : (file.drop cursor).length = file.length - cursor := List.length_drop cursor file
  constructor
  · intro hnb
    unfold process_chunk
    rw [if_neg hbig, if_pos hnb]
  · intro hnl
    have hnn : ¬ ((file[new_size - 1]?).getD (Char.ofNat 0) ≠ '\n') := by
      simp [hnl]
    have hread : ¬ ((file.drop cursor).length < new_size - cursor - 1) := by
      rw [hdrop]
      omega
    constructor
    · unfold process_chunk
      rw [if_neg hbig, if_neg hnn, if_neg hread, if_pos rfl]
    · rw [List.length_take, hdrop]
      omega

/-- The file contents used by the C4 witness: two complete lines `ab` and
`cd` appended after an already-consumed prefix. -/
def fileC4 : List Char := "hello\nab\ncd\n".data

theorem C4_chunk_read_witness :
    process_chunk 6 fileC4 true 12 = .ok (12, ["ab", "cd"]) := by
  have h := (C4_chunk_read 6 12 fileC4 true (by decide) (by decide) (by decide)).2 (by decide)
  exact h.1.trans rfl

/-- C5.  Whenever the observed file size exceeds the cursor by more than
1 MiB, the chunk is dropped without emitting any event and the cursor is
advanced to the new size — both at the chunk-read level and for the whole
(non-rotation) change-notification step. -/
theorem C5_oversized_chunk (cursor new_size : Nat) (file : List Char) (utf8Ok : Bool)
    (timeout : Nat) (attempts : List (Bool × Nat))
    (h : new_size - cursor > 1024 * 1024) :
    process_chunk cursor file utf8Ok new_size = .ok (new_size, []) ∧
    process_log_event cursor .other timeout attempts file utf8Ok new_size
      = some (.ok (new_size, [])) := by
  have hchunk : process_chunk cursor file utf8Ok new_size = .ok (new_size, []) := by
    unfold process_chunk
    rw [if_pos h]
  refine ⟨hchunk, ?_⟩
  rw [process_log_event_other]
  unfold check_size_and_read
  rw [if_neg (by omega), if_neg (by omega), hchunk]

theorem C5_oversized_chunk_witness :
    process_log_event 0 .other 1000 [] [] true 1048577 = some (.ok (1048577, [])) :=
  (C5_oversized_chunk 0 1048577 [] true 1000 [] (by decide)).2

/-- C6.  On a rename-from or metadata-any notification the tailer retries
reopening in a loop bounded by the deadline: it succeeds (resetting the
cursor to 0, after which the step behaves exactly like an ordinary
notification at cursor 0) as soon as an attempt opens before the deadline was
observed exceeded, and it fails with the fatal `RotationTimeout` error —
which `process_log_event` propagates — when a failed attempt observes a time
past the deadline. -/
theorem C6_rotation (timeout cursor new_size tfail tok : Nat)
    (pre post : List (Bool × Nat)) (kind : NotifyKind) (file : List Char)
    (utf8Ok : Bool) (attempts : List (Bool × Nat)) (e : String)
    (hpre : ∀ p ∈ pre, p.1 = false ∧ p.2 ≤ timeout)
    (hkind : kind = .renameFrom ∨ kind = .metadataAny) :
    reinit_file_descriptors timeout (pre ++ (true, tok) :: post) = some (.ok 0) ∧
    (tfail > timeout →
      reinit_file_descriptors timeout (pre ++ (false, tfail) :: post)
        = some (.error "RotationTimeout")) ∧
    (reinit_file_descriptors timeout attempts = some (.ok 0) →
      process_log_event cursor kind timeout attempts file utf8Ok new_size
        = process_log_event 0 .other timeout [] file utf8Ok new_size) ∧
    (reinit_file_descriptors timeout attempts = some (.error e) →
      process_log_event cursor kind timeout attempts file utf8Ok new_size
        = some (.error e)) := by
  refine ⟨reinit_success timeout tok pre post hpre,
    fun hfail => reinit_timeout timeout tfail pre post hpre hfail, ?_, ?_⟩
  · intro hre
    rw [process_log_event_rotation cursor timeout kind attempts file utf8Ok new_size hkind,
      hre, process_log_event_other]
  · intro hre
    rw [process_log_event_rotation cursor timeout kind attempts file utf8Ok new_size hkind,
      hre]

theorem C6_rotation_witness :
    reinit_file_descriptors 1000 [(false, 5), (true, 10)] = some (.ok 0) ∧
    reinit_file_descriptors 1000 [(false, 5), (false, 1200)] = some (.error "RotationTimeout") := by
  have h := C6_rotation 1000 0 0 1200 10 [(false, 5)] [] .renameFrom [] true [] ""
    (by decide) (Or.inl rfl)
  exact ⟨h.1, h.2.1 (by decide)⟩

/-- C8.  Across a `process_log_event` step the cursor only ever moves to
one of: its old value, the observed `new_size`, or — after a successful
rotation reopen — `0` (possibly advanced to `new_size` by the chunk read on
the new file).  In particular it never decreases except by the truncation
reset (`new_size < cursor` forces `cursor := new_size`) and the rotation
reset to `0`. -/
theorem C8_cursor_monotonic (cursor new_size : Nat) (kind : NotifyKind) (timeout : Nat)
    (attempts : List (Bool × Nat)) (file : List Char) (utf8Ok : Bool)
    (c' : Nat) (out : List String)
    (hstep : process_log_event cursor kind timeout attempts file utf8Ok new_size
      = some (.ok (c', out))) :
    (kind = .other →
      (new_size < cursor → c' = new_size) ∧
      (cursor ≤ new_size → c' = cursor ∨ c' = new_size)) ∧
    (kind ≠ .other → c' = 0 ∨ c' = new_size) := by
  constructor
  · rintro rfl
    rw [process_log_event_other] at hstep
    simp only [Option.some.injEq] at hstep
    have hc := check_size_and_read_cursor _ _ _ _ _ _ hstep
    exact ⟨hc.1, fun hle => hc.2 (by omega)⟩
  · intro hk
    have hkk : kind = .renameFrom ∨ kind = .metadataAny := by
      cases kind
      · exact Or.inl rfl
      · exact Or.inr rfl
      · exact absurd rfl hk
    rw [process_log_event_rotation cursor timeout kind attempts file utf8Ok new_size hkk]
      at hstep
    cases hre : reinit_file_descriptors timeout attempts with
    | none =>
      rw [hre] at hstep
      simp at hstep
    | some r =>
      cases r with
      | error e2 =>
        rw [hre] at hstep
        simp at hstep
      | ok c₀ =>
        have hc0 := reinit_ok_zero _ _ _ hre
        subst hc0
        rw [hre] at hstep
        simp only [Option.some.injEq] at hstep
        have hc := check_size_and_read_cursor _ _ _ _ _ _ hstep
        exact hc.2 (by omega)

theorem C8_cursor_monotonic_witness :
    (6 : Nat) = 4 ∨ (6 : Nat) = 6 :=
  ((C8_cursor_monotonic 4 6 .other 1000 [] "abc\nd\n".data true 6 ["d"]
    rfl).1 rfl).2 (by decide)

/-- C9 (counterexample).  Persisting the singleton set `{"a\r"}` and
reloading does not yield the same set: the reloaded set contains `"a"` but
not `"a\r"`, because the line-based reader strips a carriage return that
precedes the newline terminator. -/
theorem C9_roundtrip_counterexample :
    "a\r" ∈ ["a\r"] ∧
    "a\r" ∉ load_unique_values (some (store_unique_values ["a\r"])) := by
  decide

/-- C9 (amended).  For every set of strings in which no value contains a
newline and no value ends with a carriage return — which includes every
serialisable state of the unique store — writing each value followed by a
newline and reloading the file line-by-line into a fresh set yields exactly
the same set of strings. -/
theorem C9_roundtrip (values : List String)
    (h : ∀ v ∈ values, '\n' ∉ v.data ∧ v.data.getLast? ≠ some '\r') :
    ∀ x, x ∈ load_unique_values (some (store_unique_values values)) ↔ x ∈ values := by
  intro x
  show x ∈ (rust_lines (store_unique_values values)).foldl
      (fun s l => insertSet s (String.mk l)) [] ↔ x ∈ values
  rw [rust_lines_store values h, mem_foldl_insert_mk]
  simp only [List.not_mem_nil, false_or]
  rw [List.map_map]
  constructor
  · intro hx
    rcases List.mem_map.mp hx with ⟨v, hv, hvx⟩
    have : String.mk v.data = v := string_mk_data v
    rw [show (String.mk ∘ String.data) v = String.mk v.data from rfl, this] at hvx
    rw [← hvx]
    exact hv
  · intro hx
    refine List.mem_map.mpr ⟨x, hx, ?_⟩
    rw [show (String.mk ∘ String.data) x = String.mk x.data from rfl, string_mk_data x]

theorem C9_roundtrip_witness :
    ("a" ∈ load_unique_values (some (store_unique_values ["a", "b"])) ↔ "a" ∈ ["a", "b"]) :=
  C9_roundtrip ["a", "b"] (by decide) "a"

end Ramon
